import Mathlib

/-!
Shallow embedding of the streaming reconciliation core of `mb-debug`:
the patient-vitals merge (`applyUpdates`), the rolling history buffer
(`buildSeedHistory` / `appendHistory` / `pushHistoryBatch`) and the
worker-thread encryption pipeline (`encryptWorker.ts` / `crypto.ts`).

JavaScript `number` is modelled as `ℚ`; JavaScript reference identity of
immutable values is modelled as value equality (the source never mutates a
collection in place, it either returns the original object or builds a new
one, and whenever it builds a new one the new value is provably different,
so reference equality and value equality coincide at every `===`/`!==`
site that the source relies on).  `Math.sin` is a floating-point
transcendental and is therefore taken as an arbitrary parameter
`jsSin : ℚ → ℚ`; no claim depends on its values.
-/

namespace MbDebug

/-- Model of `PatientVitals` from the dashboard source (one record per monitored
subject). -/
structure PatientVitals where
  id : String
  heartRate : ℚ
  bloodPressureSystolic : ℚ
  bloodPressureDiastolic : ℚ
  oxygenSaturation : ℚ
  respiratoryRate : ℚ
  temperature : ℚ
  timestamp : ℚ
deriving DecidableEq

/-- Value of `const HISTORY_LENGTH = 20`. -/
def HISTORY_LENGTH : Nat := 20

/-- Model of `arePatientsEqual` from the source: field-by-field comparison of the
seven numeric fields.  Note that the source does **not** compare `id`. -/
def arePatientsEqual (a b : PatientVitals) : Bool :=
  (a.heartRate == b.heartRate) &&
  (a.bloodPressureSystolic == b.bloodPressureSystolic) &&
  (a.bloodPressureDiastolic == b.bloodPressureDiastolic) &&
  (a.oxygenSaturation == b.oxygenSaturation) &&
  (a.respiratoryRate == b.respiratoryRate) &&
  (a.temperature == b.temperature) &&
  (a.timestamp == b.timestamp)

/-- Model of `Math.round`: round half toward positive infinity. -/
def jsRound (x : ℚ) : ℚ := ((x + 1 / 2).floor : ℤ)

/-- Model of `Math.max` on two numbers. -/
def jsMax (a b : ℚ) : ℚ := if Rat.blt a b then b else a

/-- Model of `buildSeedHistory` from the source.  `patient.heartRate || 70` is the
JavaScript falsy-guard: `0` falls back to `70`.  `Math.sin` is the
parameter `jsSin`. -/
def buildSeedHistory (jsSin : ℚ → ℚ) (patient : PatientVitals) : List ℚ :=
  let base : ℚ := if patient.heartRate == 0 then 70 else patient.heartRate
  let offset : Nat := patient.id.length % 7
  (List.range HISTORY_LENGTH).map fun i =>
    let wave := jsSin (((i + offset : Nat) : ℚ) * (6 / 10)) * 3
    jsMax 30 (jsRound (base + wave))

/-- Model of `history ?? buildSeedHistory(patient)`: the base sequence that
`appendHistory` works on. -/
def histBase (jsSin : ℚ → ℚ) (history : Option (List ℚ))
    (patient : PatientVitals) : List ℚ :=
  history.getD (buildSeedHistory jsSin patient)

/-- Model of `appendHistory` from the source.  `base[base.length - 1] === nextValue`
is `base.getLast? = some nextValue` (for the empty list the JavaScript
index read gives `undefined`, which is `none`), and
`base.slice(-(HISTORY_LENGTH - 1))` keeps the trailing
`HISTORY_LENGTH - 1` elements (the whole list when it is shorter), which
is `base.drop (base.length - (HISTORY_LENGTH - 1))` with truncated `Nat`
subtraction. -/
def appendHistory (jsSin : ℚ → ℚ) (history : Option (List ℚ))
    (nextValue : ℚ) (patient : PatientVitals) : List ℚ :=
  let base := histBase jsSin history patient
  if base.getLast? = some nextValue then base
  else base.drop (base.length - (HISTORY_LENGTH - 1)) ++ [nextValue]

/-! ### JavaScript `Map` / plain-object semantics over string keys

Both `new Map(...)` and `{ ...prev }` objects keep string keys in
insertion order; setting an existing key updates its value in place
(keeping its position), setting a fresh key appends it.  We model both by
an association list. -/

/-- A JavaScript `Map`/object with string keys, as an insertion-ordered
association list. -/
abbrev JsMap (α : Type) := List (String × α)

/-- Model of `m.get(k)` / `m[k]`: the value at key `k`, if present. -/
def mapGet {α : Type} (m : JsMap α) (k : String) : Option α :=
  (m.find? fun e => e.1 == k).map Prod.snd

/-- Model of `m.set(k, v)` / `m[k] = v`: update the entry in place (keeping its
position) if the key is present, append it otherwise.  JavaScript maps and
objects never hold a key twice, so replacing the first occurrence is
exact. -/
def mapSet {α : Type} (m : JsMap α) (k : String) (v : α) : JsMap α :=
  match m with
  | [] => [(k, v)]
  | e :: t => if e.1 == k then (k, v) :: t else e :: mapSet t k v

/-- Model of `m.delete(k)`: remove the entry with key `k`. -/
def mapDelete {α : Type} (m : JsMap α) (k : String) : JsMap α :=
  m.filter fun e => !(e.1 == k)

/-- Model of `new Map(updates.map(update => [update.id, update]))`: entries in
first-occurrence order of the ids, value of each id from its last
occurrence in the batch. -/
def buildUpdateMap (updates : List PatientVitals) : JsMap PatientVitals :=
  updates.foldl (fun m u => mapSet m u.id u) []

/-- The `prevPatients.forEach` loop of `applyUpdates`, threading the
shrinking update map and the `changed` flag; returns
`(nextPatients, leftover update map, changed)`. -/
def mergeLoop (m : JsMap PatientVitals) :
    List PatientVitals → List PatientVitals × JsMap PatientVitals × Bool
  | [] => ([], m, false)
  | patient :: rest =>
    match mapGet m patient.id with
    | some updated =>
      let r := mergeLoop (mapDelete m patient.id) rest
      if arePatientsEqual patient updated then (patient :: r.1, r.2.1, r.2.2)
      else (updated :: r.1, r.2.1, true)
    | none =>
      let r := mergeLoop m rest
      (patient :: r.1, r.2.1, r.2.2)

/-- Model of the `setPatients` updater of `applyUpdates` from the source: walk `previous`
replacing changed entities in place, append the unconsumed updates in map
(first-occurrence) order, and return the previous collection itself when
nothing changed.  (The source's early return on an empty batch leaves the
state at `prev` with nothing marked changed, which is the same result.) -/
def applyUpdates (prev updates : List PatientVitals) :
    List PatientVitals × Bool :=
  let r := mergeLoop (buildUpdateMap updates) prev
  let next := r.1 ++ r.2.1.map Prod.snd
  let changed := r.2.2 || !r.2.1.isEmpty
  (if changed then next else prev, changed)

/-- The per-entity replacement `applyUpdates` performs on an existing
entity: the pending update for its id if one exists and differs, the
original entity otherwise. -/
def mergeEntity (m : JsMap PatientVitals) (patient : PatientVitals) :
    PatientVitals :=
  match mapGet m patient.id with
  | some updated => if arePatientsEqual patient updated then patient else updated
  | none => patient

/-- The unconsumed updates that `applyUpdates prev updates` appends: the
entries of the batch map whose key matches no entity of `prev`. -/
def newEntries (prev updates : List PatientVitals) : JsMap PatientVitals :=
  (buildUpdateMap updates).filter fun e => prev.all fun p => !(e.1 == p.id)

/-- Model of `current !== updatedHistory` in `pushHistoryBatch`: when no history was
stored, `appendHistory` built a fresh array, so the comparison is true;
when one was stored, `appendHistory` returns that very array exactly in
its dedup branch and otherwise builds an array with a different last
element, so reference inequality coincides with value inequality. -/
def refChanged (current : Option (List ℚ)) (updatedHistory : List ℚ) : Bool :=
  match current with
  | none => true
  | some l => !(updatedHistory == l)

/-- The body of the `updates.forEach` loop in `pushHistoryBatch`: note the
lookup is in `prev` (the pre-batch map), while the write goes to the
accumulated `next` map. -/
def pushHistoryStep (jsSin : ℚ → ℚ) (prev : JsMap (List ℚ))
    (st : JsMap (List ℚ) × Bool) (u : PatientVitals) : JsMap (List ℚ) × Bool :=
  let current := mapGet prev u.id
  let updatedHistory := appendHistory jsSin current u.heartRate u
  if refChanged current updatedHistory then
    (mapSet st.1 u.id updatedHistory, true)
  else st

/-- Model of `pushHistoryBatch` from the source: every `appendHistory` call reads
`prev[update.id]` (the pre-batch map), writes go to the copy `next`, and
the original map is returned when no entry changed. -/
def pushHistoryBatch (jsSin : ℚ → ℚ) (prev : JsMap (List ℚ))
    (updates : List PatientVitals) : JsMap (List ℚ) :=
  if updates.isEmpty then prev
  else
    let r := updates.foldl (pushHistoryStep jsSin prev) (prev, false)
    if r.2 then r.1 else prev

/-! ### Worker task pipeline (`encryptWorker.ts` / `crypto.ts`)

`simulateHeavyEncryption` is a synchronous computation that either returns
or throws; its outcome is modelled as `Except String Unit` carrying the
thrown fault's reason string. -/

/-- The `{ ok: true }` / `{ ok: false, error: ... }` message the worker
posts back. -/
structure WorkerResponse where
  ok : Bool
  error : Option String
deriving DecidableEq

/-- The `parentPort.on('message')` handler of `encryptWorker.ts`: run the
simulation inside `try`/`catch` and post exactly one terminal message. -/
def encryptWorkerOnMessage (simulate : Except String Unit) : WorkerResponse :=
  match simulate with
  | Except.ok _ => { ok := true, error := none }
  | Except.error e => { ok := false, error := some e }

/-- JavaScript `a || d` on an optional string: falls back on `undefined`
and on the falsy empty string. -/
def jsOrElse (a : Option String) (d : String) : String :=
  match a with
  | none => d
  | some s => if s == "" then d else s

/-- The `worker.once('message')` settlement logic of
`runEncryptionInWorker` (`crypto.ts`): `msg?.ok` resolves, anything else
rejects with `msg?.error || 'Worker failed'`. -/
def settleWorkerMessage (msg : WorkerResponse) : Except String Unit :=
  if msg.ok then Except.ok ()
  else Except.error (jsOrElse msg.error "Worker failed")

/-! ### Concrete instances used by examples, witnesses and
counterexamples -/

/-- Model of `Math.sin` that is identically zero, used to instantiate the
`jsSin` parameter on concrete inputs. -/
def jsSinZero : ℚ → ℚ := fun _ => 0

def pA : PatientVitals :=
  ⟨"a", 72, 120, 80, 98, 16, 37, 1⟩

def pB : PatientVitals :=
  ⟨"b", 75, 118, 79, 97, 15, 37, 1⟩

/-- An updated state for the same subject as `pB` (id `"b"`, changed
vitals). -/
def pB2 : PatientVitals :=
  ⟨"b", 90, 121, 82, 96, 17, 38, 2⟩

def pC : PatientVitals :=
  ⟨"c", 80, 110, 70, 99, 14, 36, 1⟩

/-- Batch update with id `"x"` and heart rate `70`. -/
def uX70 : PatientVitals :=
  ⟨"x", 70, 120, 80, 98, 16, 37, 1⟩

/-- Batch update with id `"x"` and heart rate `80`. -/
def uX80 : PatientVitals :=
  ⟨"x", 80, 120, 80, 98, 16, 37, 2⟩

/-- A stored history at full capacity, all samples `70`. -/
def hist20 : List ℚ := List.replicate HISTORY_LENGTH 70

/-! ### Lemmas about the JavaScript map model -/

theorem mapGet_nil {α : Type} (k : String) : mapGet ([] : JsMap α) k = none := rfl

theorem mapGet_cons {α : Type} (e : String × α) (m : JsMap α) (k : String) :
    mapGet (e :: m) k = if e.1 == k then some e.2 else mapGet m k := by
  by_cases h : (e.1 == k) = true
  · simp [mapGet, List.find?_cons_of_pos _ h, h]
  · simp [mapGet, List.find?_cons_of_neg _ h, h]

theorem mapGet_delete {α : Type} (m : JsMap α) (k0 k : String) :
    mapGet (mapDelete m k0) k = if k = k0 then none else mapGet m k := by
  induction m with
  | nil => simp [mapDelete, mapGet_nil]
  | cons e t ih =>
    simp only [mapDelete, List.filter_cons] at ih ⊢
    by_cases he : e.1 = k0
    · have heb : (e.1 == k0) = true := by simpa [beq_iff_eq] using he
      by_cases hk : k = k0
      · subst hk
        simp [heb, ih]
      · have h1 : (e.1 == k) = false := by
          rw [beq_eq_false_iff_ne, he]
          exact fun hh => hk hh.symm
        simp [heb, ih, hk, mapGet_cons, h1]
    · have heb : (e.1 == k0) = false := by simpa [beq_eq_false_iff_ne] using he
      by_cases hk : k = k0
      · subst hk
        have h1 : (e.1 == k) = false := by simpa [beq_eq_false_iff_ne] using he
        simp [heb, mapGet_cons, ih, h1]
      · simp [heb, mapGet_cons, ih, hk]

theorem mapGet_set_self {α : Type} (m : JsMap α) (k : String) (v : α) :
    mapGet (mapSet m k v) k = some v := by
  induction m with
  | nil => simp [mapSet, mapGet_cons]
  | cons e t ih =>
    by_cases he : (e.1 == k) = true
    · simp [mapSet, he, mapGet_cons]
    · simp [mapSet, he, mapGet_cons, ih]

theorem mapGet_set_other {α : Type} (m : JsMap α) (k k' : String) (v : α)
    (h : k' ≠ k) : mapGet (mapSet m k v) k' = mapGet m k' := by
  have hkk' : (k == k') = false := by
    simp [beq_iff_eq]
    exact fun h' => h h'.symm
  induction m with
  | nil => simp [mapSet, mapGet_cons, mapGet_nil, hkk']
  | cons e t ih =>
    by_cases he : (e.1 == k) = true
    · have he' : e.1 = k := by simpa [beq_iff_eq] using he
      subst he'
      simp [mapSet, he, mapGet_cons, hkk']
    · simp [mapSet, he, mapGet_cons, ih]

theorem mem_mapSet {α : Type} (m : JsMap α) (k : String) (v : α)
    (e : String × α) (he : e ∈ mapSet m k v) : e ∈ m ∨ e = (k, v) := by
  induction m with
  | nil => simpa [mapSet] using he
  | cons f t ih =>
    by_cases hf : (f.1 == k) = true
    · simp [mapSet, hf] at he
      rcases he with he | he
      · exact Or.inr he
      · exact Or.inl (List.mem_cons_of_mem _ he)
    · simp [mapSet, hf] at he
      rcases he with he | he
      · exact Or.inl (by simp [he])
      · rcases ih he with h1 | h1
        · exact Or.inl (List.mem_cons_of_mem _ h1)
        · exact Or.inr h1

theorem mem_keys_mapSet {α : Type} (m : JsMap α) (k k0 : String) (v : α) :
    k0 ∈ (mapSet m k v).map Prod.fst ↔ k0 ∈ m.map Prod.fst ∨ k0 = k := by
  induction m with
  | nil => simp [mapSet]
  | cons e t ih =>
    by_cases he : (e.1 == k) = true
    · have he' : e.1 = k := by simpa [beq_iff_eq] using he
      subst he'
      simp [mapSet, he, List.mem_cons]
      tauto
    · simp [mapSet, he, ih, List.mem_cons]
      tauto

theorem nodup_keys_mapSet {α : Type} (m : JsMap α) (k : String) (v : α)
    (h : (m.map Prod.fst).Nodup) : ((mapSet m k v).map Prod.fst).Nodup := by
  induction m with
  | nil => simp [mapSet]
  | cons e t ih =>
    rw [List.map_cons, List.nodup_cons] at h
    by_cases he : (e.1 == k) = true
    · have he' : e.1 = k := by simpa [beq_iff_eq] using he
      subst he'
      simpa [mapSet, he, List.nodup_cons] using h
    · have he' : e.1 ≠ k := by simpa [beq_iff_eq] using he
      rw [show mapSet (e :: t) k v = e :: mapSet t k v by simp [mapSet, he]]
      rw [List.map_cons, List.nodup_cons]
      refine ⟨?_, ih h.2⟩
      rw [mem_keys_mapSet]
      rintro (h1 | h1)
      · exact h.1 h1
      · exact he' h1

theorem mapGet_eq_none_iff {α : Type} (m : JsMap α) (k : String) :
    mapGet m k = none ↔ ∀ e ∈ m, e.1 ≠ k := by
  induction m with
  | nil => simp [mapGet_nil]
  | cons e t ih =>
    by_cases he : (e.1 == k) = true
    · have he' : e.1 = k := by simpa [beq_iff_eq] using he
      simp [mapGet_cons, he, he']
    · have he' : e.1 ≠ k := by
        simpa [beq_eq_false_iff_ne] using (Bool.not_eq_true _ ▸ he : (e.1 == k) = false)
      simp [mapGet_cons, he, ih, he']

theorem mapGet_eq_some_mem {α : Type} (m : JsMap α) (k : String) (v : α)
    (h : mapGet m k = some v) : (k, v) ∈ m := by
  induction m with
  | nil => simp [mapGet_nil] at h
  | cons e t ih =>
    rw [mapGet_cons] at h
    by_cases he : (e.1 == k) = true
    · rw [if_pos he] at h
      have hv := Option.some.inj h
      have he' : e.1 = k := by simpa [beq_iff_eq] using he
      have hekv : e = (k, v) := by
        rw [Prod.ext_iff]
        exact ⟨he', hv⟩
      exact List.mem_cons.mpr (Or.inl hekv.symm)
    · rw [if_neg he] at h
      exact List.mem_cons_of_mem _ (ih h)

theorem eq_nil_of_mapGet_none {α : Type} (m : JsMap α)
    (h : ∀ k, mapGet m k = none) : m = [] := by
  cases m with
  | nil => rfl
  | cons e t =>
    have h1 := h e.1
    rw [mapGet_cons] at h1
    simp at h1

/-! ### Lemmas about `buildUpdateMap` -/

theorem buildUpdateMap_concat (us : List PatientVitals) (u : PatientVitals) :
    buildUpdateMap (us ++ [u]) = mapSet (buildUpdateMap us) u.id u := by
  simp [buildUpdateMap, List.foldl_append]

/-- Every entry of a map built by successive `mapSet (·.id) ·` steps has a
value drawn from the inserted updates, keyed by its own id. -/
theorem foldl_mapSet_entries (S : List PatientVitals) :
    ∀ (l : List PatientVitals) (m : JsMap PatientVitals),
      (∀ e ∈ m, e.2.id = e.1 ∧ e.2 ∈ S) → (∀ u ∈ l, u ∈ S) →
      ∀ e ∈ l.foldl (fun m u => mapSet m u.id u) m, e.2.id = e.1 ∧ e.2 ∈ S
  | [], _, hm, _, e, he => hm e he
  | u :: rest, m, hm, hl, e, he => by
    refine foldl_mapSet_entries S rest (mapSet m u.id u) ?_
      (fun x hx => hl x (List.mem_cons_of_mem _ hx)) e he
    intro f hf
    rcases mem_mapSet _ _ _ _ hf with h1 | h1
    · exact hm f h1
    · subst h1
      exact ⟨rfl, hl u (List.mem_cons_self u rest)⟩

theorem buildUpdateMap_entries (us : List PatientVitals) :
    ∀ e ∈ buildUpdateMap us, e.2.id = e.1 ∧ e.2 ∈ us :=
  foldl_mapSet_entries us us [] (by simp) (fun _ h => h)

theorem mapGet_buildUpdateMap_some (us : List PatientVitals) (k : String)
    (v : PatientVitals) (h : mapGet (buildUpdateMap us) k = some v) :
    v.id = k ∧ v ∈ us :=
  buildUpdateMap_entries us (k, v) (mapGet_eq_some_mem _ _ _ h)

theorem foldl_mapSet_nodup_keys :
    ∀ (l : List PatientVitals) (m : JsMap PatientVitals),
      (m.map Prod.fst).Nodup →
      ((l.foldl (fun m u => mapSet m u.id u) m).map Prod.fst).Nodup
  | [], _, hm => hm
  | u :: rest, m, hm =>
    foldl_mapSet_nodup_keys rest _ (nodup_keys_mapSet m u.id u hm)

theorem buildUpdateMap_nodup_keys (us : List PatientVitals) :
    ((buildUpdateMap us).map Prod.fst).Nodup :=
  foldl_mapSet_nodup_keys us [] (by simp)

theorem foldl_mapSet_keys_mono :
    ∀ (l : List PatientVitals) (m : JsMap PatientVitals) (k : String),
      k ∈ m.map Prod.fst →
      k ∈ (l.foldl (fun m u => mapSet m u.id u) m).map Prod.fst
  | [], _, _, h => h
  | u :: rest, m, k, h =>
    foldl_mapSet_keys_mono rest _ k ((mem_keys_mapSet m u.id k u).mpr (Or.inl h))

theorem foldl_mapSet_keys_of_mem :
    ∀ (l : List PatientVitals) (m : JsMap PatientVitals) (u : PatientVitals),
      u ∈ l →
      u.id ∈ (l.foldl (fun m u => mapSet m u.id u) m).map Prod.fst
  | [], _, u, h => absurd h (List.not_mem_nil u)
  | u0 :: rest, m, u, h => by
    rcases List.mem_cons.mp h with h1 | h1
    · subst h1
      exact foldl_mapSet_keys_mono rest _ u.id
        ((mem_keys_mapSet m u.id u.id u).mpr (Or.inr rfl))
    · exact foldl_mapSet_keys_of_mem rest _ u h1

theorem mem_keys_buildUpdateMap (us : List PatientVitals) (u : PatientVitals)
    (h : u ∈ us) : u.id ∈ (buildUpdateMap us).map Prod.fst :=
  foldl_mapSet_keys_of_mem us [] u h

/-- Last-write-wins: the value the batch map stores for a key is the last
update in the batch carrying that id. -/
theorem mapGet_buildUpdateMap_getLast (us : List PatientVitals) (k : String) :
    mapGet (buildUpdateMap us) k = (us.filter fun u => u.id == k).getLast? := by
  induction us using List.reverseRecOn with
  | nil => simp [buildUpdateMap, mapGet_nil]
  | append_singleton us u ih =>
    rw [buildUpdateMap_concat]
    by_cases hk : u.id = k
    · subst hk
      rw [mapGet_set_self, List.filter_append]
      simp
    · rw [mapGet_set_other _ _ _ _ (fun hh => hk hh.symm), List.filter_append]
      have hb : (u.id == k) = false := by simpa [beq_eq_false_iff_ne] using hk
      simp [hb, ih]

/-! ### Lemmas about `mergeLoop` and `applyUpdates` -/

theorem mergeLoop_nil (m : JsMap PatientVitals) :
    mergeLoop m [] = ([], m, false) := rfl

theorem mapGet_of_mapGet_delete {α : Type} (m : JsMap α) (k0 k : String)
    (v : α) (h : mapGet (mapDelete m k0) k = some v) : mapGet m k = some v := by
  rw [mapGet_delete] at h
  by_cases hk : k = k0
  · simp [hk] at h
  · simpa [hk] using h

theorem mergeLoop_length :
    ∀ (l : List PatientVitals) (m : JsMap PatientVitals),
      (mergeLoop m l).1.length = l.length
  | [], _ => rfl
  | p :: rest, m => by
    cases hg : mapGet m p.id with
    | some u =>
      by_cases he : arePatientsEqual p u = true <;>
        simp [mergeLoop, hg, he, mergeLoop_length rest _]
    | none => simp [mergeLoop, hg, mergeLoop_length rest _]

theorem mergeLoop_flag_false_body :
    ∀ (l : List PatientVitals) (m : JsMap PatientVitals),
      (mergeLoop m l).2.2 = false → (mergeLoop m l).1 = l
  | [], _, _ => rfl
  | p :: rest, m, h => by
    cases hg : mapGet m p.id with
    | some u =>
      by_cases he : arePatientsEqual p u = true
      · simp only [mergeLoop, hg, he, if_true] at h ⊢
        simp [mergeLoop_flag_false_body rest _ h]
      · simp [mergeLoop, hg, he] at h
    | none =>
      simp only [mergeLoop, hg] at h ⊢
      simp [mergeLoop_flag_false_body rest _ h]

/-- The collection `applyUpdates` returns is always, as a value, the walked
previous collection followed by the unconsumed updates (when nothing
changed the walked collection is `prev` itself and the leftover is
empty). -/
theorem applyUpdates_eq_body_append (prev updates : List PatientVitals) :
    (applyUpdates prev updates).1 =
      (mergeLoop (buildUpdateMap updates) prev).1 ++
      (mergeLoop (buildUpdateMap updates) prev).2.1.map Prod.snd := by
  by_cases hc : ((mergeLoop (buildUpdateMap updates) prev).2.2 ||
      !(mergeLoop (buildUpdateMap updates) prev).2.1.isEmpty) = true
  · simp [applyUpdates, hc]
  · have hc' : ((mergeLoop (buildUpdateMap updates) prev).2.2 ||
        !(mergeLoop (buildUpdateMap updates) prev).2.1.isEmpty) = false := by
      simpa using hc
    rw [Bool.or_eq_false_iff] at hc'
    have h1 := hc'.1
    have h2 : (mergeLoop (buildUpdateMap updates) prev).2.1 = [] := by
      have h3 := hc'.2
      simp only [Bool.not_eq_false'] at h3
      exact List.isEmpty_iff.mp h3
    simp [applyUpdates, hc, h2, mergeLoop_flag_false_body prev _ h1]

/-- Walking the previous collection never disturbs the entity at position
`i` when its pending update (looked up in the full batch map) is equal to
it, or when it has none. -/
theorem mergeLoop_get :
    ∀ (l : List PatientVitals) (m M : JsMap PatientVitals),
      (∀ k v, mapGet m k = some v → mapGet M k = some v) →
      ∀ (i : Nat) (hi : i < l.length),
      (∀ u, mapGet M (l.get ⟨i, hi⟩).id = some u →
        arePatientsEqual (l.get ⟨i, hi⟩) u = true) →
      (mergeLoop m l).1[i]? = some (l.get ⟨i, hi⟩)
  | p :: rest, m, M, hsub, 0, hi, hp => by
    cases hg : mapGet m p.id with
    | some u =>
      have he : arePatientsEqual p u = true := hp u (hsub _ _ hg)
      simp [mergeLoop, hg, he]
    | none => simp [mergeLoop, hg]
  | p :: rest, m, M, hsub, Nat.succ n, hi, hp => by
    have hi' : n < rest.length := Nat.lt_of_succ_lt_succ hi
    cases hg : mapGet m p.id with
    | some u =>
      have hsub' : ∀ k v, mapGet (mapDelete m p.id) k = some v →
          mapGet M k = some v :=
        fun k v hv => hsub k v (mapGet_of_mapGet_delete _ _ _ _ hv)
      have hrest := mergeLoop_get rest (mapDelete m p.id) M hsub' n hi' hp
      by_cases he : arePatientsEqual p u = true <;>
        simp [mergeLoop, hg, he, hrest]
    | none =>
      have hrest := mergeLoop_get rest m M hsub n hi' hp
      simp [mergeLoop, hg, hrest]

theorem mergeLoop_body_of_nodup :
    ∀ (l : List PatientVitals) (m : JsMap PatientVitals),
      (l.map PatientVitals.id).Nodup →
      (mergeLoop m l).1 = l.map (mergeEntity m)
  | [], _, _ => rfl
  | p :: rest, m, hnd => by
    rw [List.map_cons, List.nodup_cons] at hnd
    have hcong : rest.map (mergeEntity (mapDelete m p.id)) =
        rest.map (mergeEntity m) := by
      apply List.map_congr_left
      intro q hq
      have hq_ne : q.id ≠ p.id := by
        intro hh
        exact hnd.1 (hh ▸ List.mem_map_of_mem PatientVitals.id hq)
      unfold mergeEntity
      rw [mapGet_delete]
      simp [hq_ne]
    cases hg : mapGet m p.id with
    | some u =>
      have hbody := mergeLoop_body_of_nodup rest (mapDelete m p.id) hnd.2
      by_cases he : arePatientsEqual p u = true <;>
        simp [mergeLoop, hg, he, hbody, hcong, mergeEntity]
    | none =>
      have hbody := mergeLoop_body_of_nodup rest m hnd.2
      simp [mergeLoop, hg, hbody, mergeEntity]

theorem mergeLoop_leftover_of_nodup :
    ∀ (l : List PatientVitals) (m : JsMap PatientVitals),
      (l.map PatientVitals.id).Nodup →
      (mergeLoop m l).2.1 = m.filter fun e => l.all fun p => !(e.1 == p.id)
  | [], m, _ => by simp [mergeLoop_nil]
  | p :: rest, m, hnd => by
    rw [List.map_cons, List.nodup_cons] at hnd
    cases hg : mapGet m p.id with
    | some u =>
      have hrest := mergeLoop_leftover_of_nodup rest (mapDelete m p.id) hnd.2
      have hdel : mapDelete m p.id = m.filter fun e => !(e.1 == p.id) := rfl
      have hstep : (mergeLoop m (p :: rest)).2.1 =
          (mergeLoop (mapDelete m p.id) rest).2.1 := by
        by_cases he : arePatientsEqual p u = true <;> simp [mergeLoop, hg, he]
      rw [hstep, hrest, hdel, List.filter_filter]
      simp only [List.all_cons]
      apply List.filter_congr
      intro e he2
      exact Bool.and_comm _ _
    | none =>
      have hrest := mergeLoop_leftover_of_nodup rest m hnd.2
      have hnone := (mapGet_eq_none_iff m p.id).mp hg
      have hcong : (m.filter fun e => rest.all fun q => !(e.1 == q.id)) =
          m.filter fun e => (p :: rest).all fun q => !(e.1 == q.id) := by
        apply List.filter_congr
        intro e hme
        have : (e.1 == p.id) = false := by
          simpa [beq_eq_false_iff_ne] using hnone e hme
        simp [List.all_cons, this]
      simp [mergeLoop, hg, hrest, hcong]

theorem mergeLoop_flag_eq_false :
    ∀ (l : List PatientVitals) (m M : JsMap PatientVitals),
      (∀ k v, mapGet m k = some v → mapGet M k = some v) →
      (∀ p ∈ l, ∀ u, mapGet M p.id = some u → arePatientsEqual p u = true) →
      (mergeLoop m l).2.2 = false
  | [], _, _, _, _ => rfl
  | p :: rest, m, M, hsub, h2 => by
    cases hg : mapGet m p.id with
    | some u =>
      have he : arePatientsEqual p u = true :=
        h2 p (List.mem_cons_self p rest) u (hsub _ _ hg)
      have hrest := mergeLoop_flag_eq_false rest (mapDelete m p.id) M
        (fun k v hv => hsub k v (mapGet_of_mapGet_delete _ _ _ _ hv))
        (fun q hq => h2 q (List.mem_cons_of_mem _ hq))
      simp [mergeLoop, hg, he, hrest]
    | none =>
      have hrest := mergeLoop_flag_eq_false rest m M hsub
        (fun q hq => h2 q (List.mem_cons_of_mem _ hq))
      simp [mergeLoop, hg, hrest]

theorem mergeLoop_leftover_eq_nil :
    ∀ (l : List PatientVitals) (m : JsMap PatientVitals),
      (∀ k v, mapGet m k = some v → ∃ p ∈ l, p.id = k) →
      (mergeLoop m l).2.1 = []
  | [], m, hcov => by
    have hall : ∀ k, mapGet m k = none := by
      intro k
      cases hg : mapGet m k with
      | none => rfl
      | some v =>
        rcases hcov k v hg with ⟨p, hp, _⟩
        exact absurd hp (List.not_mem_nil p)
    simp [mergeLoop_nil, eq_nil_of_mapGet_none m hall]
  | p :: rest, m, hcov => by
    cases hg : mapGet m p.id with
    | some u =>
      have hcov' : ∀ k v, mapGet (mapDelete m p.id) k = some v →
          ∃ q ∈ rest, q.id = k := by
        intro k v hv
        rw [mapGet_delete] at hv
        by_cases hk : k = p.id
        · simp [hk] at hv
        · rw [if_neg hk] at hv
          rcases hcov k v hv with ⟨q, hq, hqk⟩
          rcases List.mem_cons.mp hq with h1 | h1
          · exact absurd (h1 ▸ hqk : p.id = k) (fun hh => hk hh.symm)
          · exact ⟨q, h1, hqk⟩
      have hrest := mergeLoop_leftover_eq_nil rest (mapDelete m p.id) hcov'
      by_cases he : arePatientsEqual p u = true <;>
        simp [mergeLoop, hg, he, hrest]
    | none =>
      have hcov' : ∀ k v, mapGet m k = some v → ∃ q ∈ rest, q.id = k := by
        intro k v hv
        rcases hcov k v hv with ⟨q, hq, hqk⟩
        rcases List.mem_cons.mp hq with h1 | h1
        · subst h1
          rw [hqk] at hg
          rw [hg] at hv
          exact absurd hv (by simp)
        · exact ⟨q, h1, hqk⟩
      have hrest := mergeLoop_leftover_eq_nil rest m hcov'
      simp [mergeLoop, hg, hrest]

theorem mergeEntity_id (us : List PatientVitals) (p : PatientVitals) :
    (mergeEntity (buildUpdateMap us) p).id = p.id := by
  unfold mergeEntity
  cases hg : mapGet (buildUpdateMap us) p.id with
  | none => rfl
  | some u =>
    have hu := (mapGet_buildUpdateMap_some us p.id u hg).1
    by_cases he : arePatientsEqual p u = true <;> simp [he, hu]

/-! ### Lemmas about `pushHistoryBatch` -/

/-- Invariant of the history-batch loop: each stored history is either the
pre-batch one, or a single `appendHistory` of some update of the batch
applied to the pre-batch one. -/
def HistInv (jsSin : ℚ → ℚ) (prev : JsMap (List ℚ))
    (us : List PatientVitals) (next : JsMap (List ℚ)) (k : String) : Prop :=
  mapGet next k = mapGet prev k ∨
    ∃ u, u ∈ us ∧ u.id = k ∧
      mapGet next k = some (appendHistory jsSin (mapGet prev k) u.heartRate u)

theorem foldl_pushHistoryStep_inv (jsSin : ℚ → ℚ) (prev : JsMap (List ℚ))
    (us : List PatientVitals) :
    ∀ (l : List PatientVitals) (st : JsMap (List ℚ) × Bool),
      (∀ u ∈ l, u ∈ us) →
      (∀ k, HistInv jsSin prev us st.1 k) →
      ∀ k, HistInv jsSin prev us
        (l.foldl (pushHistoryStep jsSin prev) st).1 k
  | [], _, _, hinv, k => hinv k
  | u0 :: rest, st, hl, hinv, k => by
    refine foldl_pushHistoryStep_inv jsSin prev us rest
      (pushHistoryStep jsSin prev st u0)
      (fun x hx => hl x (List.mem_cons_of_mem _ hx)) ?_ k
    intro k'
    unfold pushHistoryStep
    by_cases hrc : refChanged (mapGet prev u0.id)
        (appendHistory jsSin (mapGet prev u0.id) u0.heartRate u0) = true
    · simp only [hrc, if_true]
      by_cases hk : k' = u0.id
      · refine Or.inr ⟨u0, hl u0 (List.mem_cons_self u0 rest), hk.symm, ?_⟩
        rw [hk, mapGet_set_self]
      · unfold HistInv
        rw [mapGet_set_other st.1 u0.id k' _ hk]
        exact hinv k'
    · simp only [Bool.not_eq_true] at hrc
      simp only [hrc, Bool.false_eq_true, if_false]
      exact hinv k'

theorem buildSeedHistory_length (jsSin : ℚ → ℚ) (p : PatientVitals) :
    (buildSeedHistory jsSin p).length = HISTORY_LENGTH := by
  simp [buildSeedHistory]

/-- Capacity invariant: seeded histories have length `HISTORY_LENGTH` and
`appendHistory` preserves that length, so every history the session ever
stores has length exactly `HISTORY_LENGTH`. -/
theorem appendHistory_preserves_capacity (jsSin : ℚ → ℚ)
    (h : Option (List ℚ)) (v : ℚ) (p : PatientVitals)
    (hlen : ∀ l, h = some l → l.length = HISTORY_LENGTH) :
    (appendHistory jsSin h v p).length = HISTORY_LENGTH := by
  have hb : (histBase jsSin h p).length = HISTORY_LENGTH := by
    cases h with
    | none => simpa [histBase] using buildSeedHistory_length jsSin p
    | some l => simpa [histBase] using hlen l rfl
  have hd : appendHistory jsSin h v p =
      if (histBase jsSin h p).getLast? = some v then histBase jsSin h p
      else (histBase jsSin h p).drop
        ((histBase jsSin h p).length - (HISTORY_LENGTH - 1)) ++ [v] := rfl
  rw [hd]
  by_cases hc : (histBase jsSin h p).getLast? = some v
  · simpa [hc] using hb
  · rw [if_neg hc, List.length_append, List.length_drop, hb]
    rfl

/-! ### Further concrete instances -/

/-- Same vitals and timestamp as `sameVitalsB` but a different id. -/
def sameVitalsA : PatientVitals :=
  ⟨"a", 70, 120, 80, 98, 16, 37, 1⟩

/-- Same vitals and timestamp as `sameVitalsA` but a different id. -/
def sameVitalsB : PatientVitals :=
  ⟨"b", 70, 120, 80, 98, 16, 37, 1⟩

/-! ### Claims -/

/-- C5: when the last element of the existing history (or of the seed
sequence synthesized when it is absent) differs from the incoming value,
`appendHistory` returns the trailing `HISTORY_LENGTH - 1` elements of that
sequence followed by the value, a sequence of length exactly
`HISTORY_LENGTH` (= 20).  The length hypothesis holds for every history
the program ever stores: seeds have length 20 and appends preserve it. -/
theorem appendHistory_shape (jsSin : ℚ → ℚ) (h : Option (List ℚ)) (v : ℚ)
    (p : PatientVitals)
    (hlen : ∀ l, h = some l → HISTORY_LENGTH - 1 ≤ l.length)
    (hne : (histBase jsSin h p).getLast? ≠ some v) :
    appendHistory jsSin h v p =
      (histBase jsSin h p).drop
        ((histBase jsSin h p).length - (HISTORY_LENGTH - 1)) ++ [v] ∧
    (appendHistory jsSin h v p).length = HISTORY_LENGTH := by
  have hb : HISTORY_LENGTH - 1 ≤ (histBase jsSin h p).length := by
    cases h with
    | none =>
      have hs : (buildSeedHistory jsSin p).length = HISTORY_LENGTH := by
        simp [buildSeedHistory]
      simp [histBase, hs, HISTORY_LENGTH]
    | some l => simpa [histBase] using hlen l rfl
  have heq : appendHistory jsSin h v p =
      (histBase jsSin h p).drop
        ((histBase jsSin h p).length - (HISTORY_LENGTH - 1)) ++ [v] := by
    unfold appendHistory
    rw [if_neg hne]
  refine ⟨heq, ?_⟩
  rw [heq, List.length_append, List.length_drop]
  have h20 : HISTORY_LENGTH = 20 := rfl
  simp only [h20, List.length_singleton] at hb ⊢
  omega

theorem appendHistory_shape_witness :
    (HISTORY_LENGTH - 1 ≤ hist20.length) ∧
    (appendHistory jsSinZero (some hist20) 80 pA =
      (histBase jsSinZero (some hist20) pA).drop
        ((histBase jsSinZero (some hist20) pA).length -
          (HISTORY_LENGTH - 1)) ++ [80] ∧
    (appendHistory jsSinZero (some hist20) 80 pA).length = HISTORY_LENGTH) :=
  ⟨by decide,
    appendHistory_shape jsSinZero (some hist20) 80 pA
      (fun l hl => by cases hl; decide) (by decide)⟩

/-- C6: when the last element of the (existing or seeded) base sequence
equals the incoming value, `appendHistory` returns that base sequence
itself — the very same array, so callers' identity comparison correctly
reports no change. -/
theorem appendHistory_dedup (jsSin : ℚ → ℚ) (h : Option (List ℚ)) (v : ℚ)
    (p : PatientVitals)
    (heq : (histBase jsSin h p).getLast? = some v) :
    appendHistory jsSin h v p = histBase jsSin h p := by
  unfold appendHistory
  rw [if_pos heq]

theorem appendHistory_dedup_witness :
    appendHistory jsSinZero (some hist20) 70 pA =
      histBase jsSinZero (some hist20) pA :=
  appendHistory_dedup jsSinZero (some hist20) 70 pA (by decide)

/-- C7 (counterexample): `arePatientsEqual` does not compare the `id`
field, so two records that differ only in `id` are judged equal even
though not every field of the record is value-equal. -/
theorem arePatientsEqual_ignores_id :
    arePatientsEqual sameVitalsA sameVitalsB = true ∧
      sameVitalsA ≠ sameVitalsB := by
  constructor
  · decide
  · decide

/-- C7 (amended): for records sharing an id — the only pairs
`applyUpdates` ever hands to it, since the update is looked up by the
stored entity's id — `arePatientsEqual` holds iff every field of the
record, timestamp included, is value-equal, i.e. iff the records are
equal. -/
theorem arePatientsEqual_iff_eq_of_id_eq (a b : PatientVitals)
    (hid : a.id = b.id) : arePatientsEqual a b = true ↔ a = b := by
  cases a with
  | mk a1 a2 a3 a4 a5 a6 a7 a8 =>
    cases b with
    | mk b1 b2 b3 b4 b5 b6 b7 b8 =>
      simp only at hid
      subst hid
      simp [arePatientsEqual, Bool.and_eq_true, beq_iff_eq,
        PatientVitals.mk.injEq]
      tauto

theorem arePatientsEqual_iff_eq_of_id_eq_witness :
    arePatientsEqual pA pA = true ↔ pA = pA :=
  arePatientsEqual_iff_eq_of_id_eq pA pA rfl

/-- C9: the worker's message handler is a total function producing exactly
one terminal response per submitted payload: `{ok := true}` when the
simulation returns, `{ok := false, error := reason}` when it throws; the
caller's settlement logic turns the success marker into a resolution and
any failure into a rejection carrying the reason string (with the
JavaScript falsy fallback on the message), never an unhandled crash. -/
theorem worker_terminal_outcome (reason : String) :
    encryptWorkerOnMessage (Except.error reason) =
      { ok := false, error := some reason } ∧
    encryptWorkerOnMessage (Except.ok ()) = { ok := true, error := none } ∧
    settleWorkerMessage (encryptWorkerOnMessage (Except.error reason)) =
      Except.error (jsOrElse (some reason) "Worker failed") ∧
    settleWorkerMessage (encryptWorkerOnMessage (Except.ok ())) =
      Except.ok () ∧
    ∀ sim : Except String Unit, (encryptWorkerOnMessage sim).ok = true ∨
      ∃ e, encryptWorkerOnMessage sim = { ok := false, error := some e } := by
  refine ⟨rfl, rfl, rfl, rfl, ?_⟩
  intro sim
  cases sim with
  | ok u => exact Or.inl rfl
  | error e => exact Or.inr ⟨e, rfl⟩

/-- C1: an entity of the previous collection whose pending update (if any)
is full-value-equal to it — in particular any entity with no pending
update at all — reappears at its position in the merged collection as the
very entity it was, not a rebuilt copy. -/
theorem applyUpdates_preserves_unchanged (prev updates : List PatientVitals)
    (i : Nat) (hi : i < prev.length)
    (hp : ∀ u, mapGet (buildUpdateMap updates) (prev.get ⟨i, hi⟩).id = some u →
      arePatientsEqual (prev.get ⟨i, hi⟩) u = true) :
    (applyUpdates prev updates).1[i]? = some (prev.get ⟨i, hi⟩) := by
  rw [applyUpdates_eq_body_append]
  have hlen : i < (mergeLoop (buildUpdateMap updates) prev).1.length := by
    rw [mergeLoop_length]
    exact hi
  rw [List.getElem?_append, if_pos hlen]
  exact mergeLoop_get prev (buildUpdateMap updates) (buildUpdateMap updates)
    (fun _ _ h => h) i hi hp

theorem applyUpdates_preserves_unchanged_witness :
    (applyUpdates [pA] [pC]).1[0]? = some pA := by
  have hnone : mapGet (buildUpdateMap [pC])
      (([pA].get ⟨0, by decide⟩).id) = none := by decide
  exact applyUpdates_preserves_unchanged [pA] [pC] 0 (by decide)
    (fun u hu => by rw [hnone] at hu; exact absurd hu (by simp))

/-- C2: when every update's id is already present and every pending update
is judged equal to the entity it targets — in particular for an empty
batch — `applyUpdates` reports no change and returns the previous
collection itself. -/
theorem applyUpdates_noop_identity (prev updates : List PatientVitals)
    (h1 : ∀ u ∈ updates, ∃ p ∈ prev, p.id = u.id)
    (h2 : ∀ p ∈ prev, ∀ u, mapGet (buildUpdateMap updates) p.id = some u →
      arePatientsEqual p u = true) :
    applyUpdates prev updates = (prev, false) := by
  have hflag := mergeLoop_flag_eq_false prev (buildUpdateMap updates)
    (buildUpdateMap updates) (fun _ _ h => h) h2
  have hcov : ∀ k v, mapGet (buildUpdateMap updates) k = some v →
      ∃ p ∈ prev, p.id = k := by
    intro k v hv
    rcases mapGet_buildUpdateMap_some updates k v hv with ⟨hid, hmem⟩
    rcases h1 v hmem with ⟨p, hpmem, hpid⟩
    exact ⟨p, hpmem, by rw [hpid, hid]⟩
  have hleft := mergeLoop_leftover_eq_nil prev (buildUpdateMap updates) hcov
  simp [applyUpdates, hflag, hleft]

theorem applyUpdates_noop_identity_witness :
    applyUpdates [pA] [pA] = ([pA], false) ∧
    applyUpdates [pB] [] = ([pB], false) := by
  constructor
  · have hsome : mapGet (buildUpdateMap [pA]) pA.id = some pA := by decide
    refine applyUpdates_noop_identity [pA] [pA] ?_ ?_
    · intro u hu
      rcases List.mem_singleton.mp hu with h
      exact ⟨pA, List.mem_singleton.mpr rfl, by rw [h]⟩
    · intro p hpmem u hu
      rcases List.mem_singleton.mp hpmem with h
      subst h
      rw [hsome] at hu
      cases hu
      decide
  · refine applyUpdates_noop_identity [pB] [] ?_ ?_
    · intro u hu
      exact absurd hu (List.not_mem_nil u)
    · intro p _ u hu
      rw [show mapGet (buildUpdateMap []) p.id = none from rfl] at hu
      exact absurd hu (by simp)

/-- C3: existing entities keep their previous relative positions (a
changed entity is replaced in place by its pending update), and the
batch's unconsumed updates are appended at the end in the order their ids
first appeared in the batch; concretely `[A, B]` merged with `[C, B2]`
yields `[A, B2, C]`. -/
theorem applyUpdates_ordering (prev updates : List PatientVitals)
    (hnd : (prev.map PatientVitals.id).Nodup) :
    (applyUpdates prev updates).1 =
      prev.map (mergeEntity (buildUpdateMap updates)) ++
        (newEntries prev updates).map Prod.snd ∧
    applyUpdates [pA, pB] [pC, pB2] = ([pA, pB2, pC], true) := by
  constructor
  · rw [applyUpdates_eq_body_append, mergeLoop_body_of_nodup prev _ hnd,
      mergeLoop_leftover_of_nodup prev _ hnd]
    rfl
  · decide

theorem applyUpdates_ordering_witness :
    ([pA, pB].map PatientVitals.id).Nodup ∧
    ((applyUpdates [pA, pB] [pC, pB2]).1 =
      [pA, pB].map (mergeEntity (buildUpdateMap [pC, pB2])) ++
        (newEntries [pA, pB] [pC, pB2]).map Prod.snd ∧
    applyUpdates [pA, pB] [pC, pB2] = ([pA, pB2, pC], true)) :=
  ⟨by decide, applyUpdates_ordering [pA, pB] [pC, pB2] (by decide)⟩

/-- C4: within one batch the map is keyed by id with later entries
overwriting earlier ones, so only the last update per id takes effect; on
an empty previous collection the merge result is exactly the map's values;
concretely `[{x, hr 70}, {x, hr 80}]` on empty yields one entity with
heart rate 80. -/
theorem applyUpdates_last_write_wins :
    (∀ (updates : List PatientVitals) (k : String),
      mapGet (buildUpdateMap updates) k =
        (updates.filter fun u => u.id == k).getLast?) ∧
    (∀ updates : List PatientVitals,
      (applyUpdates [] updates).1 = (buildUpdateMap updates).map Prod.snd) ∧
    applyUpdates [] [uX70, uX80] = ([uX80], true) := by
  refine ⟨mapGet_buildUpdateMap_getLast, ?_, by decide⟩
  intro updates
  rw [applyUpdates_eq_body_append]
  simp [mergeLoop_nil]

/-- C8: merging removes nothing — every previous id is still present —
and, when the previous ids are pairwise distinct, the merged ids are again
pairwise distinct and the length grows by exactly the number of distinct
batch ids not previously present (`newEntries` holds one entry per such
id). -/
theorem applyUpdates_id_invariant (prev updates : List PatientVitals)
    (hnd : (prev.map PatientVitals.id).Nodup) :
    (∀ p ∈ prev, ∃ q ∈ (applyUpdates prev updates).1, q.id = p.id) ∧
    ((applyUpdates prev updates).1.map PatientVitals.id).Nodup ∧
    (applyUpdates prev updates).1.length =
      prev.length + (newEntries prev updates).length ∧
    ((newEntries prev updates).map Prod.fst).Nodup ∧
    (∀ k, k ∈ (newEntries prev updates).map Prod.fst ↔
      k ∈ updates.map PatientVitals.id ∧
        k ∉ prev.map PatientVitals.id) := by
  have hres : (applyUpdates prev updates).1 =
      prev.map (mergeEntity (buildUpdateMap updates)) ++
        (newEntries prev updates).map Prod.snd := by
    rw [applyUpdates_eq_body_append, mergeLoop_body_of_nodup prev _ hnd,
      mergeLoop_leftover_of_nodup prev _ hnd]
    rfl
  have hids1 : (prev.map (mergeEntity (buildUpdateMap updates))).map
      PatientVitals.id = prev.map PatientVitals.id := by
    rw [List.map_map]
    apply List.map_congr_left
    intro p _
    exact mergeEntity_id updates p
  have hids2 : ((newEntries prev updates).map Prod.snd).map PatientVitals.id =
      (newEntries prev updates).map Prod.fst := by
    rw [List.map_map]
    apply List.map_congr_left
    intro e hene
    exact (buildUpdateMap_entries updates e (List.mem_of_mem_filter hene)).1
  have hkeysnd : ((newEntries prev updates).map Prod.fst).Nodup := by
    have hsub : List.Sublist ((newEntries prev updates).map Prod.fst)
        ((buildUpdateMap updates).map Prod.fst) :=
      (List.filter_sublist _).map Prod.fst
    exact (buildUpdateMap_nodup_keys updates).sublist hsub
  have hmemkeys : ∀ k, k ∈ (newEntries prev updates).map Prod.fst ↔
      k ∈ updates.map PatientVitals.id ∧
        k ∉ prev.map PatientVitals.id := by
    intro k
    constructor
    · intro hk
      rcases List.mem_map.mp hk with ⟨e, hene, hek⟩
      have hene' : e ∈ (buildUpdateMap updates).filter
          (fun e => prev.all fun p => !(e.1 == p.id)) := hene
      obtain ⟨hem, hcond0⟩ := List.mem_filter.mp hene'
      have hcond : (prev.all fun p => !(e.1 == p.id)) = true := hcond0
      rcases buildUpdateMap_entries updates e hem with ⟨hid2, hmem2⟩
      constructor
      · rw [← hek, ← hid2]
        exact List.mem_map_of_mem PatientVitals.id hmem2
      · intro hkprev
        rcases List.mem_map.mp hkprev with ⟨p, hpprev, hpk⟩
        have hcp := List.all_eq_true.mp hcond p hpprev
        rw [Bool.not_eq_eq_eq_not, Bool.not_true, beq_eq_false_iff_ne] at hcp
        exact hcp (by rw [hek, hpk])
    · rintro ⟨hku, hkp⟩
      rcases List.mem_map.mp hku with ⟨u, hus, huk⟩
      have hkey : k ∈ (buildUpdateMap updates).map Prod.fst :=
        huk ▸ mem_keys_buildUpdateMap updates u hus
      rcases List.mem_map.mp hkey with ⟨e, hem, hek⟩
      have hcond : (prev.all fun p => !(e.1 == p.id)) = true := by
        rw [List.all_eq_true]
        intro p hpprev
        rw [Bool.not_eq_eq_eq_not, Bool.not_true, beq_eq_false_iff_ne]
        intro hh
        exact hkp (List.mem_map.mpr ⟨p, hpprev, by rw [← hh, hek]⟩)
      have hnew : e ∈ newEntries prev updates :=
        List.mem_filter.mpr ⟨hem, hcond⟩
      exact hek ▸ List.mem_map_of_mem Prod.fst hnew
  refine ⟨?_, ?_, ?_, hkeysnd, hmemkeys⟩
  · intro p hpmem
    refine ⟨mergeEntity (buildUpdateMap updates) p, ?_,
      mergeEntity_id updates p⟩
    rw [hres]
    exact List.mem_append_left _ (List.mem_map_of_mem _ hpmem)
  · rw [hres, List.map_append, hids1, hids2, List.nodup_append]
    refine ⟨hnd, hkeysnd, ?_⟩
    intro a ha hanew
    exact ((hmemkeys a).mp hanew).2 ha
  · rw [hres, List.length_append, List.length_map, List.length_map]

theorem applyUpdates_id_invariant_witness :
    ([pA, pB].map PatientVitals.id).Nodup ∧
    ((applyUpdates [pA, pB] [pC, pB2]).1.map PatientVitals.id).Nodup ∧
    (applyUpdates [pA, pB] [pC, pB2]).1.length =
      [pA, pB].length + (newEntries [pA, pB] [pC, pB2]).length :=
  ⟨by decide,
    (applyUpdates_id_invariant [pA, pB] [pC, pB2] (by decide)).2.1,
    (applyUpdates_id_invariant [pA, pB] [pC, pB2] (by decide)).2.2.1⟩

/-- C10 (amended): every `appendHistory` call in a batch reads the
pre-batch history of its id, so after the batch each stored history is
either unchanged or a single `appendHistory` of one update of the batch
applied to the pre-batch history — it never accumulates two appends; the
surviving sample, however, is the one of the last duplicate whose append
was not deduplicated, which can be an earlier duplicate's value. -/
theorem pushHistoryBatch_single_append (jsSin : ℚ → ℚ)
    (prev : JsMap (List ℚ)) (updates : List PatientVitals) (k : String) :
    mapGet (pushHistoryBatch jsSin prev updates) k = mapGet prev k ∨
    ∃ u, u ∈ updates ∧ u.id = k ∧
      mapGet (pushHistoryBatch jsSin prev updates) k =
        some (appendHistory jsSin (mapGet prev k) u.heartRate u) := by
  unfold pushHistoryBatch
  by_cases hemp : updates.isEmpty = true
  · simp [hemp]
  · simp only [hemp, Bool.false_eq_true, if_false]
    by_cases hr :
        (updates.foldl (pushHistoryStep jsSin prev) (prev, false)).2 = true
    · have hinv := foldl_pushHistoryStep_inv jsSin prev updates updates
        (prev, false) (fun _ h => h) (fun _ => Or.inl rfl) k
      simpa [hr, HistInv] using hinv
    · simp only [Bool.not_eq_true] at hr
      simp [hr]

/-- C10 (counterexample): with stored history `[70]` for id `x` and the
batch `[{x, hr 80}, {x, hr 70}]`, the second (last) duplicate's append is
deduplicated against the pre-batch history, so the earlier duplicate's
value `80` is the one recorded — refuting that earlier duplicates' values
are never recorded. -/
theorem pushHistoryBatch_earlier_duplicate_recorded :
    mapGet (pushHistoryBatch jsSinZero [("x", [70])] [uX80, uX70]) "x" =
      some [70, 80] ∧
    uX80.id = uX70.id ∧ uX80.heartRate = 80 ∧ uX70.heartRate = 70 := by
  refine ⟨by decide, by decide, by decide, by decide⟩

end MbDebug
